import Mathlib

/-!
Shallow embedding of `host_buffer<T>` from `src/cuML/src/common/host_buffer.hpp`.

The buffer owns a raw block obtained from a stream-ordered allocator.  We model
a raw pointer as an optional `Block` (so the null pointer `0` becomes `none`);
each block carries an identity (standing for the pointer value handed out by
the allocator) and its typed contents, one cell per element, where a cell is
`none` while uninitialized.  Every allocator and CUDA runtime call made by the
buffer is recorded in an event trace, so that allocation accounting
(matched allocate/deallocate, byte sizes, streams) can be stated and proved.
`sizeofT` stands for `sizeof(value_type)`; streams are opaque tokens modelled
as naturals with `0` the default/null stream.
-/

/-- Memory cells hold an element value, or `none` while uninitialized. -/
abbrev Cell := Option Nat

/-- A block handed out by the allocator: an identity standing for the non-null
raw pointer, and the typed contents (one cell per element). -/
structure Block where
  id : Nat
  contents : List Cell
deriving Repr, DecidableEq

/-- One call made by the buffer to the allocator or to the CUDA runtime. -/
inductive AllocEvent where
  | allocate (id bytes stream : Nat)
  | deallocate (id bytes stream : Nat)
  | memcpyAsync (bytes stream : Nat)
  | streamSynchronize (stream : Nat)
deriving Repr, DecidableEq

/-- The three data members of `host_buffer<T>` (the `_allocator` handle is
part of the surrounding `World`). `_data = none` models the null pointer. -/
structure host_buffer where
  _size : Nat
  _capacity : Nat
  _data : Option Block
deriving Repr, DecidableEq

/-- A buffer together with its allocator state (a fresh-pointer counter) and
the trace of allocator / runtime calls issued so far. -/
structure World where
  buf : host_buffer
  nextId : Nat
  events : List AllocEvent
deriving Repr, DecidableEq

/-- Dereference of the typed view of the data pointer: contents of the held
block, or the empty view for the null pointer. -/
def contentsOf : Option Block → List Cell
  | some b => b.contents
  | none => []

/-- The allocator capability `allocate(count*sizeofT, stream)`: returns a
fresh non-null block of `count` uninitialized elements, the bumped freshness
counter, and the recorded call.  Distinct ids model distinct pointers. -/
def hostAllocator.allocate (nextId count sizeofT stream : Nat) :
    Block × Nat × AllocEvent :=
  (⟨nextId, List.replicate count none⟩, nextId + 1,
    AllocEvent.allocate nextId (count * sizeofT) stream)

/-- Typed effect of `cudaMemcpyAsync(dst, src, count*sizeofT, H2H, stream)`:
the first `count` cells of `src` overwrite the first `count` cells of `dst`. -/
def cudaMemcpyAsync (dst src : List Cell) (count : Nat) : List Cell :=
  src.take count ++ dst.drop count

/-- The constructor `host_buffer(allocator, n)`: members are initialized to
`_size = _capacity = n`, `_data = 0`; then, if `_capacity > 0`, a block of
`_capacity * sizeof(value_type)` bytes is allocated on the default stream `0`
and `cudaStreamSynchronize(0)` is issued. -/
def host_buffer.construct (sizeofT n nextId : Nat) : World :=
  if 0 < n then
    let r := hostAllocator.allocate nextId n sizeofT 0
    { buf := { _size := n, _capacity := n, _data := some r.1 },
      nextId := r.2.1,
      events := [r.2.2, AllocEvent.streamSynchronize 0] }
  else
    { buf := { _size := n, _capacity := n, _data := none },
      nextId := nextId, events := [] }

/-- `host_buffer::resize(new_size, stream)`: if `_capacity < new_size`,
allocate `new_size * sizeof(value_type)` bytes on `stream`; if `_size > 0`,
`cudaMemcpyAsync` the first `_size` elements old-to-new on `stream`; if
`_data` is non-null, deallocate it (`_capacity * sizeof(value_type)` bytes) on
`stream`; adopt the new block and set `_capacity = new_size`.  In all cases
finish with `_size = new_size`. -/
def host_buffer.resize (sizeofT : Nat) (w : World) (new_size stream : Nat) :
    World :=
  if w.buf._capacity < new_size then
    let r := hostAllocator.allocate w.nextId new_size sizeofT stream
    let copied : List Cell :=
      if 0 < w.buf._size then
        cudaMemcpyAsync r.1.contents (contentsOf w.buf._data) w.buf._size
      else r.1.contents
    let evs1 : List AllocEvent :=
      if 0 < w.buf._size then
        [AllocEvent.memcpyAsync (w.buf._size * sizeofT) stream]
      else []
    let evs2 : List AllocEvent :=
      match w.buf._data with
      | some old =>
          [AllocEvent.deallocate old.id (w.buf._capacity * sizeofT) stream]
      | none => []
    { buf := { _size := new_size, _capacity := new_size,
               _data := some { id := r.1.id, contents := copied } },
      nextId := r.2.1,
      events := w.events ++ [r.2.2] ++ evs1 ++ evs2 }
  else
    { w with buf := { w.buf with _size := new_size } }

/-- `host_buffer::clear()`: sets `_size = 0` and nothing else. -/
def host_buffer.clear (w : World) : World :=
  { w with buf := { w.buf with _size := 0 } }

/-- `host_buffer::release(stream)`: if `_data` is non-null, deallocate it
(`_capacity * sizeof(value_type)` bytes) on `stream`; then reset `_data = 0`,
`_capacity = 0`, `_size = 0`. -/
def host_buffer.release (sizeofT : Nat) (w : World) (stream : Nat) : World :=
  let w1 :=
    match w.buf._data with
    | some d =>
        { w with events := w.events ++
            [AllocEvent.deallocate d.id (w.buf._capacity * sizeofT) stream] }
    | none => w
  { w1 with buf := { _size := 0, _capacity := 0, _data := none } }

/-- The destructor `~host_buffer()`: if `_data` is non-null, deallocate it
(`_capacity * sizeof(value_type)` bytes) on the default stream `0`. -/
def host_buffer.destruct (sizeofT : Nat) (w : World) : World :=
  match w.buf._data with
  | some d =>
      { w with events := w.events ++
          [AllocEvent.deallocate d.id (w.buf._capacity * sizeofT) 0] }
  | none => w

/-- The query `data()`: returns the raw pointer (`none` is null). -/
def host_buffer.data (b : host_buffer) : Option Block :=
  b._data

/-- The query `size()`. -/
def host_buffer.size (b : host_buffer) : Nat :=
  b._size

/-- `resize` embedded in the exception monad, against an allocator whose
`allocate` may fail (`allocFails bytes stream = true` signals the failure the
real allocator reports by throwing).  The allocate call is the first statement
of the grow branch of `host_buffer::resize`; when it throws, the exception
propagates before any member is written and before any deallocate is issued,
so the error value carries the state exactly as it was at the call. -/
def host_buffer.resizeE (sizeofT : Nat) (allocFails : Nat → Nat → Bool)
    (w : World) (new_size stream : Nat) : Except World World :=
  if w.buf._capacity < new_size then
    if allocFails (new_size * sizeofT) stream then
      Except.error w
    else
      Except.ok (host_buffer.resize sizeofT w new_size stream)
  else
    Except.ok { w with buf := { w.buf with _size := new_size } }

/-- An operation applied to a live buffer (between construction and
destruction). -/
inductive Op where
  | resizeOp (new_size stream : Nat)
  | clearOp
  | releaseOp (stream : Nat)
deriving Repr, DecidableEq

/-- Run a sequence of buffer operations left to right. -/
def runOps (sizeofT : Nat) (w : World) (ops : List Op) : World :=
  match ops with
  | [] => w
  | op :: rest =>
    let w1 :=
      match op with
      | Op.resizeOp n s => host_buffer.resize sizeofT w n s
      | Op.clearOp => host_buffer.clear w
      | Op.releaseOp s => host_buffer.release sizeofT w s
    runOps sizeofT w1 rest

/-- Run a sequence of `resize` calls, given as (new_size, stream) pairs. -/
def runResizes (sizeofT : Nat) (w : World) (ss : List (Nat × Nat)) : World :=
  match ss with
  | [] => w
  | (n, s) :: rest => runResizes sizeofT (host_buffer.resize sizeofT w n s) rest

/-- The (id, bytes) pairs of the allocate calls in a trace, in order. -/
def allocList : List AllocEvent → List (Nat × Nat)
  | [] => []
  | AllocEvent.allocate id bytes _ :: es => (id, bytes) :: allocList es
  | AllocEvent.deallocate _ _ _ :: es => allocList es
  | AllocEvent.memcpyAsync _ _ :: es => allocList es
  | AllocEvent.streamSynchronize _ :: es => allocList es

/-- The (id, bytes) pairs of the deallocate calls in a trace, in order. -/
def deallocList : List AllocEvent → List (Nat × Nat)
  | [] => []
  | AllocEvent.allocate _ _ _ :: es => deallocList es
  | AllocEvent.deallocate id bytes _ :: es => (id, bytes) :: deallocList es
  | AllocEvent.memcpyAsync _ _ :: es => deallocList es
  | AllocEvent.streamSynchronize _ :: es => deallocList es

/-- At every point of the trace, the number of deallocate calls issued so far
never exceeds the number of allocate calls issued so far. -/
def DeallocLeAlloc (es : List AllocEvent) : Prop :=
  ∀ k, (deallocList (es.take k)).length ≤ (allocList (es.take k)).length

/-- The data-model invariants of the spec: `0 ≤ size ≤ capacity` and the data
pointer is non-null iff `capacity > 0`. -/
def Inv3 (b : host_buffer) : Prop :=
  b._size ≤ b._capacity ∧ (b._data ≠ none ↔ 0 < b._capacity)

/-- Strengthened well-formedness: the invariants plus the fact that the held
block really has `_capacity` elements. -/
def WFbuf (b : host_buffer) : Prop :=
  b._size ≤ b._capacity ∧
  (contentsOf b._data).length = b._capacity ∧
  (b._data ≠ none ↔ 0 < b._capacity)

/-- Allocation-accounting invariant carried along a trace: every allocated id
is below the freshness counter, allocated ids are distinct, the allocate calls
are exactly the deallocate calls plus the currently held block (with its
`_capacity * sizeofT` byte size), and no trace point has more deallocates
than allocates. -/
def TraceInv (sizeofT : Nat) (w : World) : Prop :=
  (∀ p ∈ allocList w.events, p.1 < w.nextId) ∧
  ((allocList w.events).map Prod.fst).Nodup ∧
  (match w.buf._data with
   | some d =>
       List.Perm (allocList w.events)
         (deallocList w.events ++ [(d.id, w.buf._capacity * sizeofT)])
   | none => List.Perm (allocList w.events) (deallocList w.events)) ∧
  DeallocLeAlloc w.events

/-- A concrete world used by the evaluation theorems below: a buffer of
capacity 3 holding 2 live elements, built over element size 4. -/
def bufEx : World :=
  { buf := { _size := 2, _capacity := 3,
             _data := some { id := 0, contents := [some 1, some 2, none] } },
    nextId := 1,
    events := [AllocEvent.allocate 0 12 0, AllocEvent.streamSynchronize 0] }

/-- The resize-size sequence of the spec's worked example: grow to 10, shrink
to 3, grow to 20, all on stream 1. -/
def ssEx : List (Nat × Nat) :=
  [(10, 1), (3, 1), (20, 1)]


theorem allocList_append (a b : List AllocEvent) :
    allocList (a ++ b) = allocList a ++ allocList b := by
  induction a with
  | nil => rfl
  | cons e es ih => cases e <;> simp [allocList, ih]

theorem deallocList_append (a b : List AllocEvent) :
    deallocList (a ++ b) = deallocList a ++ deallocList b := by
  induction a with
  | nil => rfl
  | cons e es ih => cases e <;> simp [deallocList, ih]

/-- Claim C7: when `new_size ≤ capacity`, `resize` performs no allocator call
and leaves capacity, the data pointer and the allocator state unchanged; only
`size` becomes `new_size` (covering both shrink and regrow within spare
capacity). -/
theorem resize_within_capacity_frame (sizeofT : Nat) (w : World)
    (new_size stream : Nat) (h : new_size ≤ w.buf._capacity) :
    (host_buffer.resize sizeofT w new_size stream).events = w.events ∧
    (host_buffer.resize sizeofT w new_size stream).buf._capacity =
      w.buf._capacity ∧
    (host_buffer.resize sizeofT w new_size stream).buf._data = w.buf._data ∧
    (host_buffer.resize sizeofT w new_size stream).nextId = w.nextId ∧
    (host_buffer.resize sizeofT w new_size stream).buf._size = new_size := by
  have hlt : ¬ w.buf._capacity < new_size := Nat.not_lt.mpr h
  simp [host_buffer.resize, hlt]

/-- Evaluation of `resize_within_capacity_frame` at a concrete input. -/
theorem resize_within_capacity_frame_witness :
    2 ≤ bufEx.buf._capacity ∧
    ((host_buffer.resize 4 bufEx 2 7).events = bufEx.events ∧
     (host_buffer.resize 4 bufEx 2 7).buf._capacity = bufEx.buf._capacity ∧
     (host_buffer.resize 4 bufEx 2 7).buf._data = bufEx.buf._data ∧
     (host_buffer.resize 4 bufEx 2 7).nextId = bufEx.nextId ∧
     (host_buffer.resize 4 bufEx 2 7).buf._size = 2) :=
  ⟨by decide, resize_within_capacity_frame 4 bufEx 2 7 (by decide)⟩

/-- Claim C8: `clear` sets `size` to 0 and changes nothing else (capacity,
data pointer, allocator state and trace unchanged), and a subsequent `resize`
to any `m ≤` the prior capacity performs no reallocation. -/
theorem clear_frame (sizeofT : Nat) (w : World) (m stream : Nat)
    (hm : m ≤ w.buf._capacity) :
    (host_buffer.clear w).buf._size = 0 ∧
    (host_buffer.clear w).buf._capacity = w.buf._capacity ∧
    (host_buffer.clear w).buf._data = w.buf._data ∧
    (host_buffer.clear w).events = w.events ∧
    (host_buffer.clear w).nextId = w.nextId ∧
    (host_buffer.resize sizeofT (host_buffer.clear w) m stream).events =
      w.events ∧
    (host_buffer.resize sizeofT (host_buffer.clear w) m stream).buf._data =
      w.buf._data ∧
    (host_buffer.resize sizeofT (host_buffer.clear w) m stream).buf._capacity =
      w.buf._capacity := by
  have hlt : ¬ w.buf._capacity < m := Nat.not_lt.mpr hm
  refine ⟨rfl, rfl, rfl, rfl, rfl, ?_, ?_, ?_⟩ <;>
    simp [host_buffer.clear, host_buffer.resize, hlt]

/-- Evaluation of `clear_frame` at a concrete input. -/
theorem clear_frame_witness :
    3 ≤ bufEx.buf._capacity ∧
    ((host_buffer.clear bufEx).buf._size = 0 ∧
     (host_buffer.clear bufEx).buf._capacity = bufEx.buf._capacity ∧
     (host_buffer.clear bufEx).buf._data = bufEx.buf._data ∧
     (host_buffer.clear bufEx).events = bufEx.events ∧
     (host_buffer.clear bufEx).nextId = bufEx.nextId ∧
     (host_buffer.resize 4 (host_buffer.clear bufEx) 3 7).events =
       bufEx.events ∧
     (host_buffer.resize 4 (host_buffer.clear bufEx) 3 7).buf._data =
       bufEx.buf._data ∧
     (host_buffer.resize 4 (host_buffer.clear bufEx) 3 7).buf._capacity =
       bufEx.buf._capacity) :=
  ⟨by decide, clear_frame 4 bufEx 3 7 (by decide)⟩

/-- Claim C10: `release` is idempotent — a second `release` (on any stream)
performs no allocator call and leaves the whole observable state unchanged,
so release-then-release equals a single release. -/
theorem release_idempotent (sizeofT : Nat) (w : World) (s1 s2 : Nat) :
    host_buffer.release sizeofT (host_buffer.release sizeofT w s1) s2 =
      host_buffer.release sizeofT w s1 := by
  cases hd : w.buf._data <;> simp [host_buffer.release, hd]

/-- Claim C9: when the allocator fails on the grow path, the exception leaves
size, capacity and the data pointer exactly as they were before the call, and
that `resize` has issued no deallocate (the trace is unchanged). -/
theorem resizeE_alloc_failure_unchanged (sizeofT : Nat)
    (allocFails : Nat → Nat → Bool) (w v : World) (new_size stream : Nat)
    (herr : host_buffer.resizeE sizeofT allocFails w new_size stream =
      Except.error v) :
    v.buf._size = w.buf._size ∧ v.buf._capacity = w.buf._capacity ∧
    v.buf._data = w.buf._data ∧ v.events = w.events ∧ v.nextId = w.nextId := by
  by_cases h1 : w.buf._capacity < new_size
  · by_cases h2 : allocFails (new_size * sizeofT) stream
    · simp [host_buffer.resizeE, h1, h2] at herr
      subst herr
      exact ⟨rfl, rfl, rfl, rfl, rfl⟩
    · simp [host_buffer.resizeE, h1, h2] at herr
  · simp [host_buffer.resizeE, h1] at herr

/-- Evaluation of `resizeE_alloc_failure_unchanged` at a concrete input: an
allocator that always fails, asked to grow `bufEx` from capacity 3 to 5. -/
theorem resizeE_alloc_failure_unchanged_witness :
    (host_buffer.resizeE 4 (fun _ _ => true) bufEx 5 9 =
      Except.error bufEx) ∧
    (bufEx.buf._size = bufEx.buf._size ∧
     bufEx.buf._capacity = bufEx.buf._capacity ∧
     bufEx.buf._data = bufEx.buf._data ∧
     bufEx.events = bufEx.events ∧ bufEx.nextId = bufEx.nextId) :=
  ⟨rfl, resizeE_alloc_failure_unchanged 4 (fun _ _ => true) bufEx bufEx 5 9 rfl⟩

/-- Claim C6: construction with initial size `n` yields `size = capacity = n`;
if `n > 0` it requests exactly `n * sizeofT` bytes on the default/null stream
`0`, then synchronizes that stream, and `data()` is non-null; if `n = 0` no
allocator call is made and `data()` is null. -/
theorem construct_spec (sizeofT n nid : Nat) :
    (host_buffer.construct sizeofT n nid).buf._size = n ∧
    (host_buffer.construct sizeofT n nid).buf._capacity = n ∧
    (host_buffer.construct sizeofT n nid).events =
      (if 0 < n then
        [AllocEvent.allocate nid (n * sizeofT) 0,
         AllocEvent.streamSynchronize 0]
       else []) ∧
    (host_buffer.data (host_buffer.construct sizeofT n nid).buf ≠ none ↔
      0 < n) := by
  by_cases h : 0 < n <;>
    simp [host_buffer.construct, host_buffer.data, hostAllocator.allocate, h]

/-- Claim C5: `release(stream)` deallocates the held block (with its
`capacity * sizeofT` byte size, on `stream`) iff `capacity > 0`, given the
data-pointer invariant; afterwards `size() = 0`, `capacity = 0`, and `data()`
returns the null indicator. -/
theorem release_spec (sizeofT : Nat) (w : World) (stream : Nat)
    (hinv : w.buf._data ≠ none ↔ 0 < w.buf._capacity) :
    (0 < w.buf._capacity →
      ∃ d, w.buf._data = some d ∧
        (host_buffer.release sizeofT w stream).events =
          w.events ++
            [AllocEvent.deallocate d.id (w.buf._capacity * sizeofT) stream]) ∧
    (w.buf._capacity = 0 →
      (host_buffer.release sizeofT w stream).events = w.events) ∧
    host_buffer.size (host_buffer.release sizeofT w stream).buf = 0 ∧
    (host_buffer.release sizeofT w stream).buf._capacity = 0 ∧
    host_buffer.data (host_buffer.release sizeofT w stream).buf = none := by
  cases hd : w.buf._data with
  | some d =>
    refine ⟨fun _ => ⟨d, rfl, by simp [host_buffer.release, hd]⟩,
      fun h0 => ?_, rfl, rfl, rfl⟩
    have : 0 < w.buf._capacity := hinv.mp (by simp [hd])
    omega
  | none =>
    refine ⟨fun hc => absurd (hinv.mpr hc) (by simp [hd]),
      fun _ => by simp [host_buffer.release, hd], rfl, rfl, rfl⟩

/-- Evaluation of `release_spec` at a concrete input. -/
theorem release_spec_witness :
    (bufEx.buf._data ≠ none ↔ 0 < bufEx.buf._capacity) ∧
    ((0 < bufEx.buf._capacity →
      ∃ d, bufEx.buf._data = some d ∧
        (host_buffer.release 4 bufEx 7).events =
          bufEx.events ++
            [AllocEvent.deallocate d.id (bufEx.buf._capacity * 4) 7]) ∧
     (bufEx.buf._capacity = 0 →
      (host_buffer.release 4 bufEx 7).events = bufEx.events) ∧
     host_buffer.size (host_buffer.release 4 bufEx 7).buf = 0 ∧
     (host_buffer.release 4 bufEx 7).buf._capacity = 0 ∧
     host_buffer.data (host_buffer.release 4 bufEx 7).buf = none) :=
  ⟨by decide, release_spec 4 bufEx 7 (by decide)⟩

/-- Claim C3: construction establishes, and resize, clear and release
preserve, the data-model invariants: `0 ≤ size ≤ capacity`, and the data
pointer is non-null iff `capacity > 0` (the queries are pure and mutate
nothing). -/
theorem invariants_preserved (sizeofT n nid : Nat) (w : World)
    (hw : Inv3 w.buf) :
    Inv3 (host_buffer.construct sizeofT n nid).buf ∧
    (∀ ns s, Inv3 (host_buffer.resize sizeofT w ns s).buf) ∧
    Inv3 (host_buffer.clear w).buf ∧
    (∀ s, Inv3 (host_buffer.release sizeofT w s).buf) := by
  obtain ⟨h1, h2⟩ := hw
  refine ⟨?_, ?_, ?_, ?_⟩
  · by_cases h : 0 < n <;>
      simp [host_buffer.construct, Inv3, h]
  · intro ns s
    by_cases h : w.buf._capacity < ns
    · simp [host_buffer.resize, Inv3, h]
      omega
    · simp [host_buffer.resize, Inv3, h]
      exact ⟨by omega, h2⟩
  · exact ⟨Nat.zero_le _, h2⟩
  · intro s
    exact ⟨Nat.le_refl 0, by simp [host_buffer.release]⟩

/-- Evaluation of `invariants_preserved` at a concrete input. -/
theorem invariants_preserved_witness :
    Inv3 bufEx.buf ∧
    (Inv3 (host_buffer.construct 4 5 0).buf ∧
     (∀ ns s, Inv3 (host_buffer.resize 4 bufEx ns s).buf) ∧
     Inv3 (host_buffer.clear bufEx).buf ∧
     (∀ s, Inv3 (host_buffer.release 4 bufEx s).buf)) :=
  ⟨⟨by decide, by decide⟩, invariants_preserved 4 5 0 bufEx ⟨by decide, by decide⟩⟩

theorem cudaMemcpyAsync_length (dst src : List Cell) (count : Nat)
    (hc : count ≤ src.length) :
    (cudaMemcpyAsync dst src count).length = count + (dst.length - count) := by
  unfold cudaMemcpyAsync
  simp [List.length_take, List.length_drop]
  omega

theorem cudaMemcpyAsync_take (dst src : List Cell) (count : Nat)
    (hc : count ≤ src.length) :
    (cudaMemcpyAsync dst src count).take count = src.take count := by
  unfold cudaMemcpyAsync
  rw [List.take_append_eq_append_take, List.take_take]
  have h1 : (src.take count).length = count := by
    rw [List.length_take]; omega
  simp [h1]

/-- Claim C1: on the grow path (`capacity < new_size`), `resize` allocates a
block of exactly `new_size * sizeofT` bytes on `stream` (no growth factor),
issues a copy of the first `size` elements when `size > 0`, deallocates the
old block when one exists, and adopts the new block with
`capacity = new_size`; the first `size` element values are preserved. -/
theorem resize_grow_spec (sizeofT : Nat) (w : World) (new_size stream : Nat)
    (hwf : WFbuf w.buf) (hlt : w.buf._capacity < new_size) :
    (host_buffer.resize sizeofT w new_size stream).events =
      w.events ++ [AllocEvent.allocate w.nextId (new_size * sizeofT) stream]
        ++ (if 0 < w.buf._size then
              [AllocEvent.memcpyAsync (w.buf._size * sizeofT) stream]
            else [])
        ++ (match w.buf._data with
            | some old =>
                [AllocEvent.deallocate old.id (w.buf._capacity * sizeofT)
                  stream]
            | none => []) ∧
    (host_buffer.resize sizeofT w new_size stream).buf._capacity = new_size ∧
    (host_buffer.resize sizeofT w new_size stream).buf._size = new_size ∧
    (∃ blk : Block,
      (host_buffer.resize sizeofT w new_size stream).buf._data = some blk ∧
      blk.id = w.nextId ∧ blk.contents.length = new_size ∧
      blk.contents.take w.buf._size =
        (contentsOf w.buf._data).take w.buf._size) := by
  obtain ⟨hsc, hclen, hiff⟩ := hwf
  refine ⟨by simp [host_buffer.resize, hlt, hostAllocator.allocate],
    by simp [host_buffer.resize, hlt], by simp [host_buffer.resize, hlt], ?_⟩
  by_cases hs : 0 < w.buf._size
  · refine ⟨⟨w.nextId, cudaMemcpyAsync (List.replicate new_size none)
      (contentsOf w.buf._data) w.buf._size⟩,
      by simp [host_buffer.resize, hlt, hs, hostAllocator.allocate],
      rfl, ?_, ?_⟩
    · rw [cudaMemcpyAsync_length _ _ _ (by omega)]
      simp
      omega
    · exact cudaMemcpyAsync_take _ _ _ (by omega)
  · have hs0 : w.buf._size = 0 := by omega
    exact ⟨⟨w.nextId, List.replicate new_size none⟩,
      by simp [host_buffer.resize, hlt, hs, hostAllocator.allocate],
      rfl, by simp, by simp [hs0]⟩

/-- Evaluation of `resize_grow_spec` at a concrete input: growing `bufEx`
(capacity 3, two live elements) to 5 elements. -/
theorem resize_grow_spec_witness :
    WFbuf bufEx.buf ∧ bufEx.buf._capacity < 5 ∧
    ((host_buffer.resize 4 bufEx 5 9).events =
      bufEx.events ++ [AllocEvent.allocate bufEx.nextId (5 * 4) 9]
        ++ (if 0 < bufEx.buf._size then
              [AllocEvent.memcpyAsync (bufEx.buf._size * 4) 9]
            else [])
        ++ (match bufEx.buf._data with
            | some old =>
                [AllocEvent.deallocate old.id (bufEx.buf._capacity * 4) 9]
            | none => []) ∧
     (host_buffer.resize 4 bufEx 5 9).buf._capacity = 5 ∧
     (host_buffer.resize 4 bufEx 5 9).buf._size = 5 ∧
     (∃ blk : Block,
       (host_buffer.resize 4 bufEx 5 9).buf._data = some blk ∧
       blk.id = bufEx.nextId ∧ blk.contents.length = 5 ∧
       blk.contents.take bufEx.buf._size =
         (contentsOf bufEx.buf._data).take bufEx.buf._size)) :=
  ⟨⟨by decide, by decide, by decide⟩, by decide,
    resize_grow_spec 4 bufEx 5 9 ⟨by decide, by decide, by decide⟩ (by decide)⟩

theorem resize_size_capacity (sizeofT : Nat) (w : World) (n s : Nat) :
    (host_buffer.resize sizeofT w n s).buf._size = n ∧
    n ≤ (host_buffer.resize sizeofT w n s).buf._capacity ∧
    w.buf._capacity ≤ (host_buffer.resize sizeofT w n s).buf._capacity := by
  by_cases h : w.buf._capacity < n <;> simp [host_buffer.resize, h] <;> omega

theorem runResizes_append (sizeofT : Nat) (w : World)
    (a b : List (Nat × Nat)) :
    runResizes sizeofT w (a ++ b) =
      runResizes sizeofT (runResizes sizeofT w a) b := by
  induction a generalizing w with
  | nil => rfl
  | cons p rest ih =>
    cases p
    simp [runResizes, ih]

theorem runResizes_capacity_mono (sizeofT : Nat) (w : World)
    (ss : List (Nat × Nat)) :
    w.buf._capacity ≤ (runResizes sizeofT w ss).buf._capacity := by
  induction ss generalizing w with
  | nil => exact Nat.le_refl _
  | cons p rest ih =>
    cases p with
    | mk n s =>
      exact Nat.le_trans (resize_size_capacity sizeofT w n s).2.2
        (ih (host_buffer.resize sizeofT w n s))

theorem runResizes_size (sizeofT : Nat) (w : World) (ss : List (Nat × Nat))
    (h : ss ≠ []) :
    (runResizes sizeofT w ss).buf._size = (ss.getLast h).1 := by
  induction ss generalizing w with
  | nil => cases h rfl
  | cons p rest ih =>
    cases p with
    | mk n s =>
      revert h
      cases rest with
      | nil =>
        intro h
        simp [runResizes, List.getLast,
          (resize_size_capacity sizeofT w n s).1]
      | cons q rest2 =>
        intro h
        have hne : q :: rest2 ≠ [] := List.cons_ne_nil q rest2
        rw [List.getLast_cons hne]
        exact ih (host_buffer.resize sizeofT w n s) hne

theorem runResizes_capacity_ge_max (sizeofT : Nat) (w : World)
    (ss : List (Nat × Nat)) :
    (ss.map Prod.fst).foldr max 0 ≤ (runResizes sizeofT w ss).buf._capacity := by
  induction ss generalizing w with
  | nil => simp
  | cons p rest ih =>
    cases p with
    | mk n s =>
      simp only [List.map_cons, List.foldr_cons]
      rw [max_le_iff]
      exact ⟨Nat.le_trans (resize_size_capacity sizeofT w n s).2.1
          (runResizes_capacity_mono sizeofT _ rest),
        ih (host_buffer.resize sizeofT w n s)⟩

theorem runResizes_capacity_take_mono (sizeofT : Nat) (w : World)
    (ss : List (Nat × Nat)) (k : Nat) :
    (runResizes sizeofT w (ss.take k)).buf._capacity ≤
      (runResizes sizeofT w (ss.take (k+1))).buf._capacity := by
  rw [List.take_succ, runResizes_append]
  cases h : ss[k]? with
  | none => exact Nat.le_refl _
  | some p =>
    cases p with
    | mk n s =>
      exact (resize_size_capacity sizeofT _ n s).2.2

/-- Claim C2: for every sequence of resize calls with sizes s1..sk, after the
sequence `size = sk` and `capacity ≥ max(s1..sk)`; capacity never decreases
from one call to the next, and after each individual `resize(new_size)` the
buffer has `size = new_size` and `capacity ≥ new_size`. -/
theorem resize_sequence_spec (sizeofT : Nat) (w : World)
    (ss : List (Nat × Nat)) (h : ss ≠ []) :
    (runResizes sizeofT w ss).buf._size = (ss.getLast h).1 ∧
    (ss.map Prod.fst).foldr max 0 ≤ (runResizes sizeofT w ss).buf._capacity ∧
    (∀ k, (runResizes sizeofT w (ss.take k)).buf._capacity ≤
      (runResizes sizeofT w (ss.take (k+1))).buf._capacity) ∧
    (∀ (v : World) (n s : Nat),
      (host_buffer.resize sizeofT v n s).buf._size = n ∧
      n ≤ (host_buffer.resize sizeofT v n s).buf._capacity) :=
  ⟨runResizes_size sizeofT w ss h,
   runResizes_capacity_ge_max sizeofT w ss,
   runResizes_capacity_take_mono sizeofT w ss,
   fun v n s => ⟨(resize_size_capacity sizeofT v n s).1,
     (resize_size_capacity sizeofT v n s).2.1⟩⟩

/-- Evaluation of `resize_sequence_spec` at a concrete input. -/
theorem resize_sequence_spec_witness :
    ssEx ≠ [] ∧
    ((runResizes 4 bufEx ssEx).buf._size = (ssEx.getLast (by decide)).1 ∧
     (ssEx.map Prod.fst).foldr max 0 ≤ (runResizes 4 bufEx ssEx).buf._capacity ∧
     (∀ k, (runResizes 4 bufEx (ssEx.take k)).buf._capacity ≤
       (runResizes 4 bufEx (ssEx.take (k+1))).buf._capacity) ∧
     (∀ (v : World) (n s : Nat),
       (host_buffer.resize 4 v n s).buf._size = n ∧
       n ≤ (host_buffer.resize 4 v n s).buf._capacity)) :=
  ⟨by decide, resize_sequence_spec 4 bufEx ssEx (by decide)⟩

theorem construct_pos_unfold (sizeofT n nid : Nat) (h : 0 < n) :
    host_buffer.construct sizeofT n nid =
      { buf := { _size := n, _capacity := n,
                 _data := some ⟨nid, List.replicate n none⟩ },
        nextId := nid + 1,
        events := [AllocEvent.allocate nid (n * sizeofT) 0,
                   AllocEvent.streamSynchronize 0] } := by
  simp [host_buffer.construct, hostAllocator.allocate, h]

theorem construct_zero_unfold (sizeofT n nid : Nat) (h : ¬ 0 < n) :
    host_buffer.construct sizeofT n nid =
      { buf := { _size := n, _capacity := n, _data := none },
        nextId := nid, events := [] } := by
  simp [host_buffer.construct, h]

theorem resize_grow_unfold (sizeofT : Nat) (w : World) (n s : Nat)
    (hlt : w.buf._capacity < n) :
    host_buffer.resize sizeofT w n s =
      { buf := { _size := n, _capacity := n,
                 _data := some ⟨w.nextId,
                   if 0 < w.buf._size then
                     cudaMemcpyAsync (List.replicate n none)
                       (contentsOf w.buf._data) w.buf._size
                   else List.replicate n none⟩ },
        nextId := w.nextId + 1,
        events := w.events ++ [AllocEvent.allocate w.nextId (n * sizeofT) s]
          ++ (if 0 < w.buf._size then
                [AllocEvent.memcpyAsync (w.buf._size * sizeofT) s] else [])
          ++ (match w.buf._data with
              | some old => [AllocEvent.deallocate old.id
                  (w.buf._capacity * sizeofT) s]
              | none => []) } := by
  simp [host_buffer.resize, hlt, hostAllocator.allocate]

theorem resize_keep_unfold (sizeofT : Nat) (w : World) (n s : Nat)
    (hlt : ¬ w.buf._capacity < n) :
    host_buffer.resize sizeofT w n s =
      { w with buf := { w.buf with _size := n } } := by
  simp [host_buffer.resize, hlt]

theorem release_some_unfold (sizeofT : Nat) (w : World) (s : Nat) (d : Block)
    (hd : w.buf._data = some d) :
    host_buffer.release sizeofT w s =
      { buf := { _size := 0, _capacity := 0, _data := none },
        nextId := w.nextId,
        events := w.events ++
          [AllocEvent.deallocate d.id (w.buf._capacity * sizeofT) s] } := by
  simp [host_buffer.release, hd]

theorem release_none_unfold (sizeofT : Nat) (w : World) (s : Nat)
    (hd : w.buf._data = none) :
    host_buffer.release sizeofT w s =
      { buf := { _size := 0, _capacity := 0, _data := none },
        nextId := w.nextId, events := w.events } := by
  simp [host_buffer.release, hd]

theorem deallocLeAlloc_append (es l : List AllocEvent)
    (h1 : DeallocLeAlloc es)
    (h2 : ∀ m, (deallocList es).length + (deallocList (l.take m)).length ≤
        (allocList es).length + (allocList (l.take m)).length) :
    DeallocLeAlloc (es ++ l) := by
  intro k
  rw [List.take_append_eq_append_take, deallocList_append, allocList_append,
    List.length_append, List.length_append]
  rcases le_or_lt k es.length with hk | hk
  · have h0 : k - es.length = 0 := Nat.sub_eq_zero_of_le hk
    rw [h0]
    simpa [allocList, deallocList] using h1 k
  · rw [List.take_of_length_le (Nat.le_of_lt hk)]
    exact h2 (k - es.length)

theorem traceInv_congr (sizeofT : Nat) (w v : World)
    (he : v.events = w.events) (hn : v.nextId = w.nextId)
    (hd : v.buf._data = w.buf._data) (hc : v.buf._capacity = w.buf._capacity)
    (h : TraceInv sizeofT w) : TraceInv sizeofT v := by
  unfold TraceInv at h ⊢
  rw [he, hn, hd, hc]
  exact h

theorem traceInv_clear (sizeofT : Nat) (w : World) (h : TraceInv sizeofT w) :
    TraceInv sizeofT (host_buffer.clear w) :=
  traceInv_congr sizeofT w _ rfl rfl rfl rfl h

theorem traceInv_release (sizeofT : Nat) (w : World) (s : Nat)
    (h : TraceInv sizeofT w) :
    TraceInv sizeofT (host_buffer.release sizeofT w s) := by
  obtain ⟨hbound, hnodup, hperm, hpre⟩ := h
  cases hd : w.buf._data with
  | none =>
    rw [release_none_unfold sizeofT w s hd]
    have hperm1 : List.Perm (allocList w.events) (deallocList w.events) := by
      rw [hd] at hperm; exact hperm
    exact ⟨hbound, hnodup, hperm1, hpre⟩
  | some d =>
    rw [release_some_unfold sizeofT w s d hd]
    have hperm1 : List.Perm (allocList w.events)
        (deallocList w.events ++ [(d.id, w.buf._capacity * sizeofT)]) := by
      rw [hd] at hperm; exact hperm
    have hlen : (allocList w.events).length =
        (deallocList w.events).length + 1 := by
      simpa using hperm1.length_eq
    refine ⟨?_, ?_, ?_, ?_⟩
    · intro p hp
      dsimp only at hp ⊢
      rw [allocList_append] at hp
      simp only [allocList, List.append_nil] at hp
      exact hbound p hp
    · dsimp only
      rw [allocList_append]
      simpa [allocList] using hnodup
    · dsimp only
      rw [allocList_append, deallocList_append]
      simpa [allocList, deallocList] using hperm1
    · dsimp only
      refine deallocLeAlloc_append _ _ hpre ?_
      intro m
      rcases m with _ | m <;>
        simp [allocList, deallocList, List.take] <;> omega

theorem traceInv_construct (sizeofT n nid : Nat) :
    TraceInv sizeofT (host_buffer.construct sizeofT n nid) := by
  by_cases h : 0 < n
  · rw [construct_pos_unfold sizeofT n nid h]
    refine ⟨?_, ?_, ?_, ?_⟩
    · intro p hp
      dsimp only at hp ⊢
      simp [allocList] at hp
      rw [hp]
      exact Nat.lt_succ_self nid
    · dsimp only
      simp [allocList]
    · dsimp only
      simp [allocList, deallocList]
    · intro k
      dsimp only
      rcases k with _ | _ | k <;> simp [allocList, deallocList, List.take]
  · rw [construct_zero_unfold sizeofT n nid h]
    refine ⟨?_, ?_, ?_, ?_⟩
    · intro p hp
      simp [allocList] at hp
    · simp [allocList]
    · simp [allocList, deallocList]
    · intro k
      simp [allocList, deallocList]

theorem traceInv_resize (sizeofT : Nat) (w : World) (n s : Nat)
    (h : TraceInv sizeofT w) :
    TraceInv sizeofT (host_buffer.resize sizeofT w n s) := by
  obtain ⟨hbound, hnodup, hperm, hpre⟩ := h
  by_cases hlt : w.buf._capacity < n
  case neg =>
    rw [resize_keep_unfold sizeofT w n s hlt]
    exact traceInv_congr sizeofT w _ rfl rfl rfl rfl
      ⟨hbound, hnodup, hperm, hpre⟩
  case pos =>
    rw [resize_grow_unfold sizeofT w n s hlt]
    cases hd : w.buf._data with
    | some old =>
      have hperm1 : List.Perm (allocList w.events)
          (deallocList w.events ++ [(old.id, w.buf._capacity * sizeofT)]) := by
        rw [hd] at hperm; exact hperm
      have hlen : (allocList w.events).length =
          (deallocList w.events).length + 1 := by
        simpa using hperm1.length_eq
      by_cases hs : 0 < w.buf._size <;>
        simp only [if_pos, if_neg, hs, if_true, if_false, ite_true, ite_false,
          List.append_nil] <;>
        refine ⟨?_, ?_, ?_, ?_⟩
      · intro p hp
        dsimp only at hp ⊢
        simp only [allocList_append, allocList, List.append_nil] at hp
        rcases List.mem_append.mp hp with hp1 | hp1
        · exact Nat.lt_succ_of_lt (hbound p hp1)
        · rw [List.mem_singleton.mp hp1]
          exact Nat.lt_succ_self _
      · dsimp only
        simp only [allocList_append, allocList, List.append_nil,
          List.map_append]
        refine List.Nodup.append hnodup (by simp) ?_
        intro x hx hy
        simp at hy
        subst hy
        obtain ⟨q, hq, hq1⟩ := List.mem_map.mp hx
        have := hbound q hq
        omega
      · dsimp only
        simp only [allocList_append, allocList, deallocList_append,
          deallocList, List.append_nil]
        exact hperm1.append_right [(w.nextId, n * sizeofT)]
      · dsimp only
        rw [List.append_assoc, List.append_assoc]
        refine deallocLeAlloc_append _ _ hpre ?_
        intro m
        rcases m with _ | _ | _ | m <;>
          simp [allocList, deallocList, List.take] <;> omega
      · intro p hp
        dsimp only at hp ⊢
        simp only [allocList_append, allocList, List.append_nil] at hp
        rcases List.mem_append.mp hp with hp1 | hp1
        · exact Nat.lt_succ_of_lt (hbound p hp1)
        · rw [List.mem_singleton.mp hp1]
          exact Nat.lt_succ_self _
      · dsimp only
        simp only [allocList_append, allocList, List.append_nil,
          List.map_append]
        refine List.Nodup.append hnodup (by simp) ?_
        intro x hx hy
        simp at hy
        subst hy
        obtain ⟨q, hq, hq1⟩ := List.mem_map.mp hx
        have := hbound q hq
        omega
      · dsimp only
        simp only [allocList_append, allocList, deallocList_append,
          deallocList, List.append_nil]
        exact hperm1.append_right [(w.nextId, n * sizeofT)]
      · dsimp only
        rw [List.append_assoc]
        refine deallocLeAlloc_append _ _ hpre ?_
        intro m
        rcases m with _ | _ | m <;>
          simp [allocList, deallocList, List.take] <;> omega
    | none =>
      have hperm1 : List.Perm (allocList w.events) (deallocList w.events) := by
        rw [hd] at hperm; exact hperm
      have hlen : (allocList w.events).length =
          (deallocList w.events).length := hperm1.length_eq
      by_cases hs : 0 < w.buf._size <;>
        simp only [if_pos, if_neg, hs, if_true, if_false, ite_true, ite_false,
          List.append_nil] <;>
        refine ⟨?_, ?_, ?_, ?_⟩
      · intro p hp
        dsimp only at hp ⊢
        simp only [allocList_append, allocList, List.append_nil] at hp
        rcases List.mem_append.mp hp with hp1 | hp1
        · exact Nat.lt_succ_of_lt (hbound p hp1)
        · rw [List.mem_singleton.mp hp1]
          exact Nat.lt_succ_self _
      · dsimp only
        simp only [allocList_append, allocList, List.append_nil,
          List.map_append]
        refine List.Nodup.append hnodup (by simp) ?_
        intro x hx hy
        simp at hy
        subst hy
        obtain ⟨q, hq, hq1⟩ := List.mem_map.mp hx
        have := hbound q hq
        omega
      · dsimp only
        simp only [allocList_append, allocList, deallocList_append,
          deallocList, List.append_nil]
        exact hperm1.append_right [(w.nextId, n * sizeofT)]
      · dsimp only
        rw [List.append_assoc]
        refine deallocLeAlloc_append _ _ hpre ?_
        intro m
        rcases m with _ | _ | m <;>
          simp [allocList, deallocList, List.take] <;> omega
      · intro p hp
        dsimp only at hp ⊢
        simp only [allocList_append, allocList, List.append_nil] at hp
        rcases List.mem_append.mp hp with hp1 | hp1
        · exact Nat.lt_succ_of_lt (hbound p hp1)
        · rw [List.mem_singleton.mp hp1]
          exact Nat.lt_succ_self _
      · dsimp only
        simp only [allocList_append, allocList, List.append_nil,
          List.map_append]
        refine List.Nodup.append hnodup (by simp) ?_
        intro x hx hy
        simp at hy
        subst hy
        obtain ⟨q, hq, hq1⟩ := List.mem_map.mp hx
        have := hbound q hq
        omega
      · dsimp only
        simp only [allocList_append, allocList, deallocList_append,
          deallocList, List.append_nil]
        exact hperm1.append_right [(w.nextId, n * sizeofT)]
      · dsimp only
        refine deallocLeAlloc_append _ _ hpre ?_
        intro m
        rcases m with _ | m <;>
          simp [allocList, deallocList, List.take] <;> omega

theorem traceInv_runOps (sizeofT : Nat) (w : World) (ops : List Op)
    (h : TraceInv sizeofT w) : TraceInv sizeofT (runOps sizeofT w ops) := by
  induction ops generalizing w with
  | nil => exact h
  | cons op rest ih =>
    cases op with
    | resizeOp n s => exact ih _ (traceInv_resize sizeofT w n s h)
    | clearOp => exact ih _ (traceInv_clear sizeofT w h)
    | releaseOp s => exact ih _ (traceInv_release sizeofT w s h)

theorem traceInv_destruct (sizeofT : Nat) (w : World)
    (h : TraceInv sizeofT w) :
    List.Perm (deallocList (host_buffer.destruct sizeofT w).events)
      (allocList (host_buffer.destruct sizeofT w).events) ∧
    ((allocList (host_buffer.destruct sizeofT w).events).map Prod.fst).Nodup ∧
    DeallocLeAlloc (host_buffer.destruct sizeofT w).events := by
  obtain ⟨hbound, hnodup, hperm, hpre⟩ := h
  cases hd : w.buf._data with
  | none =>
    have hperm1 : List.Perm (allocList w.events) (deallocList w.events) := by
      rw [hd] at hperm; exact hperm
    have hun : host_buffer.destruct sizeofT w = w := by
      simp [host_buffer.destruct, hd]
    rw [hun]
    exact ⟨hperm1.symm, hnodup, hpre⟩
  | some d =>
    have hperm1 : List.Perm (allocList w.events)
        (deallocList w.events ++ [(d.id, w.buf._capacity * sizeofT)]) := by
      rw [hd] at hperm; exact hperm
    have hlen : (allocList w.events).length =
        (deallocList w.events).length + 1 := by
      simpa using hperm1.length_eq
    have hun : (host_buffer.destruct sizeofT w).events = w.events ++
        [AllocEvent.deallocate d.id (w.buf._capacity * sizeofT) 0] := by
      simp [host_buffer.destruct, hd]
    rw [hun]
    refine ⟨?_, ?_, ?_⟩
    · rw [allocList_append, deallocList_append]
      simp only [allocList, deallocList, List.append_nil]
      exact hperm1.symm
    · rw [allocList_append]
      simpa [allocList] using hnodup
    · refine deallocLeAlloc_append _ _ hpre ?_
      intro m
      rcases m with _ | m <;>
        simp [allocList, deallocList, List.take] <;> omega

/-- Claim C4: along every trace that constructs a buffer, applies any sequence
of resize / clear / release operations, and ends in destruction, the
deallocate calls are exactly the allocate calls — each allocated block is
returned exactly once, with the byte size it was allocated with (allocated
ids are pairwise distinct) — and at no point of the trace does the number of
deallocate calls exceed the number of allocate calls. -/
theorem alloc_dealloc_balanced (sizeofT n nid : Nat) (ops : List Op) :
    List.Perm
      (deallocList (host_buffer.destruct sizeofT
        (runOps sizeofT (host_buffer.construct sizeofT n nid) ops)).events)
      (allocList (host_buffer.destruct sizeofT
        (runOps sizeofT (host_buffer.construct sizeofT n nid) ops)).events) ∧
    ((allocList (host_buffer.destruct sizeofT
        (runOps sizeofT (host_buffer.construct sizeofT n nid) ops)).events).map
      Prod.fst).Nodup ∧
    DeallocLeAlloc (host_buffer.destruct sizeofT
      (runOps sizeofT (host_buffer.construct sizeofT n nid) ops)).events :=
  traceInv_destruct sizeofT _
    (traceInv_runOps sizeofT _ ops (traceInv_construct sizeofT n nid))
